import Mathlib

set_option maxRecDepth 8000

namespace OpeningExplorer

/-!
Shallow embedding of lila-openingexplorer3.

Byte strings are modelled as `List Nat` whose elements are byte values.
Machine integers (`u64`, `usize`) are modelled as `Nat` with explicit
`% 2 ^ 64` where the Rust code wraps.
-/

/-- Result of `(white_rating + black_rating)`-style u64 arithmetic: the u64 modulus. -/
def U64 : Nat := 2 ^ 64

/-- Error kinds that `read_uint` (src/model/uint.rs) can surface: `eof` models a
failing `read_u8` on an exhausted reader, `invalidData` models
`io::ErrorKind::InvalidData` returned when `checked_shl` fails. -/
inductive RErr where
  | eof
  | invalidData
deriving DecidableEq

/-- Loop body of `read_uint` (src/model/uint.rs lines 5-17).  The shift starts at 0
and grows by 7 for each byte read.  `checked_shl` fails, giving `InvalidData`, as
soon as the shift reaches 64; otherwise the low 7 bits of the byte are shifted into
the accumulator with u64 wrapping, and a byte with clear continuation bit stops the
loop. -/
def read_uint_aux : List Nat → Nat → Nat → Except RErr (Nat × List Nat)
  | [], _, _ => .error .eof
  | b :: rest, shift, acc =>
    if 64 ≤ shift then .error .invalidData
    else
      let acc2 := acc ||| (((b % 128) <<< shift) % U64)
      if b < 128 then .ok (acc2, rest)
      else read_uint_aux rest (shift + 7) acc2

/-- `read_uint` from src/model/uint.rs: LEB128 decoding of a u64, returning the
decoded value and the unconsumed remainder of the input. -/
def read_uint (bs : List Nat) : Except RErr (Nat × List Nat) :=
  read_uint_aux bs 0 0

/-- `write_uint` from src/model/uint.rs lines 19-25: emit 7-bit groups LSB first,
setting the high (continuation) bit on every byte but the last. -/
def write_uint (n : Nat) : List Nat :=
  if h : 127 < n then (n % 128 + 128) :: write_uint (n / 128) else [n]
termination_by n
decreasing_by exact Nat.div_lt_self (by omega) (by omega)

/-- Decoding the encoder's output, started at any byte position `shift` of the
accumulator, adds `n` at that position and consumes exactly the encoding. -/
theorem read_write_aux (n : Nat) : ∀ (shift acc : Nat) (rest : List Nat),
    shift < 64 → acc < 2 ^ shift → 2 ^ shift * n + acc < U64 →
    read_uint_aux (write_uint n ++ rest) shift acc = .ok (2 ^ shift * n + acc, rest) := by
  induction n using Nat.strong_induction_on with
  | _ n ih =>
    intro shift acc rest hs ha hbound
    have hU : U64 = 2 ^ 64 := rfl
    rw [write_uint]
    split
    · rename_i h127
      rw [List.cons_append]
      rw [read_uint_aux]
      rw [if_neg (by omega)]
      have hmod : (n % 128 + 128) % 128 = n % 128 := by omega
      have hshl : ((n % 128 + 128) % 128) <<< shift = 2 ^ shift * (n % 128) := by
        rw [hmod, Nat.shiftLeft_eq, Nat.mul_comm]
      have hsmall : 2 ^ shift * (n % 128) % U64 = 2 ^ shift * (n % 128) := by
        apply Nat.mod_eq_of_lt
        have h1 : 2 ^ shift * (n % 128) ≤ 2 ^ shift * n :=
          Nat.mul_le_mul_left _ (Nat.mod_le n 128)
        omega
      have hacc2 : acc ||| ((((n % 128 + 128) % 128) <<< shift) % U64)
          = 2 ^ shift * (n % 128) + acc := by
        rw [hshl, hsmall, Nat.lor_comm, ← Nat.mul_add_lt_is_or ha]
      rw [if_neg (by omega)]
      simp only [hacc2]
      have hp : (2 : Nat) ^ (shift + 7) = 2 ^ shift * 128 := by
        rw [pow_add]; norm_num
      have hdm : 128 * (n / 128) + n % 128 = n := Nat.div_add_mod n 128
      have heq : 2 ^ (shift + 7) * (n / 128) + (2 ^ shift * (n % 128) + acc)
          = 2 ^ shift * n + acc := by
        rw [hp]
        calc 2 ^ shift * 128 * (n / 128) + (2 ^ shift * (n % 128) + acc)
            = 2 ^ shift * (128 * (n / 128) + n % 128) + acc := by ring
          _ = 2 ^ shift * n + acc := by rw [hdm]
      have hs7 : shift + 7 < 64 := by
        by_contra hcon
        have h64 : (2 : Nat) ^ 64 ≤ 2 ^ (shift + 7) :=
          Nat.pow_le_pow_right (by omega) (by omega)
        have h2 : 2 ^ (shift + 7) ≤ 2 ^ shift * n := by
          rw [hp]; exact Nat.mul_le_mul_left _ (by omega)
        omega
      have ha2 : 2 ^ shift * (n % 128) + acc < 2 ^ (shift + 7) := by
        have h1 : 2 ^ shift * (n % 128) ≤ 2 ^ shift * 127 :=
          Nat.mul_le_mul_left _ (by omega)
        have h2 : (2 : Nat) ^ shift * 128 = 2 ^ shift * 127 + 2 ^ shift := by ring
        omega
      have hb2 : 2 ^ (shift + 7) * (n / 128) + (2 ^ shift * (n % 128) + acc) < U64 := by
        rw [heq]; exact hbound
      rw [ih (n / 128) (Nat.div_lt_self (by omega) (by omega)) (shift + 7)
        (2 ^ shift * (n % 128) + acc) rest hs7 ha2 hb2]
      rw [heq]
    · rename_i h127
      have hn : n ≤ 127 := by omega
      rw [List.cons_append, List.nil_append]
      rw [read_uint_aux]
      rw [if_neg (by omega)]
      have hmod : n % 128 = n := by omega
      have hshl : (n % 128) <<< shift = 2 ^ shift * n := by
        rw [hmod, Nat.shiftLeft_eq, Nat.mul_comm]
      have hsmall : 2 ^ shift * n % U64 = 2 ^ shift * n := by
        apply Nat.mod_eq_of_lt; omega
      have hacc2 : acc ||| (((n % 128) <<< shift) % U64) = 2 ^ shift * n + acc := by
        rw [hshl, hsmall, Nat.lor_comm, ← Nat.mul_add_lt_is_or ha]
      rw [if_pos (by omega)]
      simp only [hacc2]

/-- C3: for every `n : u64`, decoding the bytes produced by the varint encoder
returns `n`: `read_uint (write_uint n) = n`, with the whole encoding consumed. -/
theorem read_uint_write_uint (n : Nat) (h : n < U64) :
    read_uint (write_uint n) = .ok (n, []) := by
  have h0 := read_write_aux n 0 0 [] (by omega) (by norm_num) (by simpa using h)
  simpa [read_uint] using h0

/-- Witness for C3 at the concrete input 300. -/
theorem read_uint_write_uint_witness : read_uint (write_uint 300) = .ok (300, []) :=
  read_uint_write_uint 300 (by norm_num [U64])

/-- Reading with `70 - 7 * k` as the current shift (so `k` more bytes may still be
shifted in) yields `InvalidData` exactly when the next `k` bytes all carry the
continuation bit and a further byte exists to be read at shift ≥ 64. -/
theorem invalid_iff_aux : ∀ (bs : List Nat) (k acc : Nat), k ≤ 10 →
    (read_uint_aux bs (70 - 7 * k) acc = .error .invalidData ↔
      k < bs.length ∧ ∀ b ∈ bs.take k, 128 ≤ b) := by
  intro bs
  induction bs with
  | nil =>
    intro k acc hk
    simp [read_uint_aux]
  | cons b rest ih =>
    intro k acc hk
    rcases k with _ | j
    · rw [read_uint_aux, if_pos (by omega)]
      simp
    · rw [read_uint_aux, if_neg (by omega)]
      by_cases hb : b < 128
      · rw [if_pos hb]
        simp only [List.take_succ_cons]
        constructor
        · intro hcon; exact absurd hcon (by simp)
        · rintro ⟨h1, h2⟩
          exact absurd (h2 b (List.mem_cons_self b _)) (by omega)
      · rw [if_neg hb]
        have h7 : 70 - 7 * (j + 1) + 7 = 70 - 7 * j := by omega
        rw [h7, ih j _ (by omega)]
        simp only [List.take_succ_cons, List.length_cons, List.mem_cons]
        constructor
        · rintro ⟨h1, h2⟩
          refine ⟨by omega, ?_⟩
          rintro x (rfl | hx)
          · omega
          · exact h2 x hx
        · rintro ⟨h1, h2⟩
          exact ⟨by omega, fun x hx => h2 x (Or.inr hx)⟩

/-- C9 (amended): the decoder fails with `InvalidData` exactly when the encoding has
more than 10 meaningful bytes, i.e. when the first ten bytes all carry the
continuation bit and an eleventh byte is present, at which point the accumulated
shift (70) exceeds 64 bits; every terminated encoding of at most 10 bytes is
accepted. -/
theorem read_uint_invalidData_iff (bs : List Nat) :
    read_uint bs = .error .invalidData ↔
      10 < bs.length ∧ ∀ b ∈ bs.take 10, 128 ≤ b := by
  have h := invalid_iff_aux bs 10 0 (by omega)
  simpa [read_uint] using h

/-- Witness for C9: eleven continuation bytes make the decoder fail with
`InvalidData`. -/
theorem read_uint_invalidData_iff_witness :
    read_uint (List.replicate 11 200) = .error .invalidData :=
  (read_uint_invalidData_iff (List.replicate 11 200)).mpr (by decide)

/-- Counterexample to C9 as stated: an encoding with exactly 10 meaningful bytes
(nine continuation bytes followed by a terminator) is accepted by the decoder,
returning `2 ^ 63`, although the claim says more than 9 meaningful bytes fail. -/
theorem read_uint_ten_bytes_accepted :
    (List.replicate 9 128 ++ [1]).length = 10 ∧
      read_uint (List.replicate 9 128 ++ [1]) = .ok (2 ^ 63, []) := by
  constructor
  · rfl
  · rfl

/-!
## Stable descending sort

Rust's slice sort (`sort_by_key` with a `Reverse` key, used in src/main.rs, and
the recent-games sort of the personal merge) is a stable sort.  A stable
descending insertion sort is an exact model of its input/output behaviour.
-/

/-- Stable insertion of `x` into a list sorted descending by `key`: walk past
elements with strictly larger key, so that ties keep earlier elements first. -/
def insertDesc (key : α → Nat) (x : α) : List α → List α
  | [] => [x]
  | y :: ys => if key x < key y then y :: insertDesc key x ys else x :: y :: ys

/-- Stable descending sort by `key`. -/
def sortDesc (key : α → Nat) (l : List α) : List α :=
  l.foldr (insertDesc key) []

theorem insertDesc_nil (key : α → Nat) (x : α) : insertDesc key x [] = [x] := rfl

theorem insertDesc_cons (key : α → Nat) (x y : α) (ys : List α) :
    insertDesc key x (y :: ys)
      = if key x < key y then y :: insertDesc key x ys else x :: y :: ys := rfl

/-- Insertions of elements with distinct keys commute. -/
theorem insertDesc_comm (key : α → Nat) (a b : α) (h : key a < key b) :
    ∀ w : List α, insertDesc key b (insertDesc key a w)
      = insertDesc key a (insertDesc key b w) := by
  intro w
  induction w with
  | nil =>
    simp only [insertDesc_nil, insertDesc_cons, if_neg (show ¬ key b < key a by omega),
      if_pos h, insertDesc_nil]
  | cons z zs ih =>
    by_cases haz : key a < key z
    · by_cases hbz : key b < key z
      · simp only [insertDesc_cons, if_pos haz, if_pos hbz, ih]

      · simp only [insertDesc_cons, if_pos haz, if_neg hbz, if_pos h,
          if_neg (show ¬ key b < key a by omega)]
    · have hbz : ¬ key b < key z := by omega
      simp only [insertDesc_cons, if_neg haz, if_neg hbz, if_pos h,
        if_neg (show ¬ key b < key a by omega)]

/-- Folding an insertion-extended list inserts the extra element into the fold. -/
theorem foldr_insertDesc (key : α → Nat) (x : α) :
    ∀ (s : List α) (acc : List α),
      List.foldr (insertDesc key) acc (insertDesc key x s)
        = insertDesc key x (List.foldr (insertDesc key) acc s) := by
  intro s
  induction s with
  | nil => intro acc; rfl
  | cons y ys ih =>
    intro acc
    by_cases hxy : key x < key y
    · rw [insertDesc_cons, if_pos hxy, List.foldr_cons, ih acc, List.foldr_cons,
        insertDesc_comm key x y hxy]
    · rw [insertDesc_cons, if_neg hxy, List.foldr_cons, List.foldr_cons]

/-- Pre-sorting the input does not change an insertion fold. -/
theorem foldr_insertDesc_sortDesc (key : α → Nat) :
    ∀ (l acc : List α),
      List.foldr (insertDesc key) acc (sortDesc key l)
        = List.foldr (insertDesc key) acc l := by
  intro l
  induction l with
  | nil => intro acc; rfl
  | cons h t ih =>
    intro acc
    have hs : sortDesc key (h :: t) = insertDesc key h (sortDesc key t) := rfl
    rw [hs, foldr_insertDesc, ih acc, List.foldr_cons]

/-- Stability: sorting a pre-sorted front segment yields the same list as sorting
in one pass. -/
theorem sortDesc_append_sortDesc (key : α → Nat) (a b : List α) :
    sortDesc key (sortDesc key a ++ b) = sortDesc key (a ++ b) := by
  unfold sortDesc
  rw [List.foldr_append, List.foldr_append]
  exact foldr_insertDesc_sortDesc key a _

theorem length_insertDesc (key : α → Nat) (x : α) :
    ∀ l : List α, (insertDesc key x l).length = l.length + 1 := by
  intro l
  induction l with
  | nil => rfl
  | cons y ys ih =>
    by_cases hxy : key x < key y
    · rw [insertDesc_cons, if_pos hxy, List.length_cons, ih, List.length_cons]
    · rw [insertDesc_cons, if_neg hxy, List.length_cons, List.length_cons]

theorem length_sortDesc (key : α → Nat) (l : List α) :
    (sortDesc key l).length = l.length := by
  induction l with
  | nil => rfl
  | cons y ys ih =>
    have hs : sortDesc key (y :: ys) = insertDesc key y (sortDesc key ys) := rfl
    rw [hs, length_insertDesc, ih, List.length_cons]

theorem mem_insertDesc (key : α → Nat) (x z : α) :
    ∀ l : List α, z ∈ insertDesc key x l → z = x ∨ z ∈ l := by
  intro l
  induction l with
  | nil => intro h; simpa [insertDesc_nil] using h
  | cons y ys ih =>
    intro h
    by_cases hxy : key x < key y
    · rw [insertDesc_cons, if_pos hxy] at h
      rcases List.mem_cons.mp h with rfl | h2
      · exact Or.inr (List.mem_cons_self _ _)
      · rcases ih h2 with h3 | h3
        · exact Or.inl h3
        · exact Or.inr (List.mem_cons_of_mem _ h3)
    · rw [insertDesc_cons, if_neg hxy] at h
      rcases List.mem_cons.mp h with rfl | h2
      · exact Or.inl rfl
      · exact Or.inr h2

/-- Inserting preserves descending sortedness. -/
theorem pairwise_insertDesc (key : α → Nat) (x : α) :
    ∀ l : List α, l.Pairwise (fun a b => key b ≤ key a) →
      (insertDesc key x l).Pairwise (fun a b => key b ≤ key a) := by
  intro l
  induction l with
  | nil => intro _; simp [insertDesc_nil]
  | cons y ys ih =>
    intro h
    rcases List.pairwise_cons.mp h with ⟨hy, ht⟩
    by_cases hxy : key x < key y
    · rw [insertDesc_cons, if_pos hxy]
      refine List.pairwise_cons.mpr ⟨?_, ih ht⟩
      intro z hz
      rcases mem_insertDesc key x z ys hz with rfl | h2
      · omega
      · exact hy z h2
    · rw [insertDesc_cons, if_neg hxy]
      refine List.pairwise_cons.mpr ⟨?_, h⟩
      intro z hz
      rcases List.mem_cons.mp hz with rfl | h2
      · omega
      · have := hy z h2; omega

/-- The output of `sortDesc` is sorted descending by `key`. -/
theorem sortDesc_sorted (key : α → Nat) (l : List α) :
    (sortDesc key l).Pairwise (fun a b => key b ≤ key a) := by
  induction l with
  | nil => simp [sortDesc]
  | cons y ys ih => exact pairwise_insertDesc key y _ ih

theorem insertDesc_perm (key : α → Nat) (x : α) :
    ∀ l : List α, (insertDesc key x l).Perm (x :: l) := by
  intro l
  induction l with
  | nil => rfl
  | cons y ys ih =>
    by_cases hxy : key x < key y
    · rw [insertDesc_cons, if_pos hxy]
      exact (ih.cons y).trans (List.Perm.swap x y ys)
    · rw [insertDesc_cons, if_neg hxy]

/-- The output of `sortDesc` is a permutation of its input. -/
theorem sortDesc_perm (key : α → Nat) (l : List α) : (sortDesc key l).Perm l := by
  induction l with
  | nil => rfl
  | cons y ys ih =>
    have hs : sortDesc key (y :: ys) = insertDesc key y (sortDesc key ys) := rfl
    rw [hs]
    exact (insertDesc_perm key y _).trans (ih.cons y)

/-!
## PersonalEntry and the personal merge operator (src/db.rs lines 128-145)
-/

/-- Modelled from the spec: `MoveStats` of a `PersonalEntry` (the model module is
absent from the sources); `(wins, draws, losses, total)` counters plus the
average-rating accumulator, all unsigned and summed by merges. -/
structure MoveStats where
  wins : Nat
  draws : Nat
  losses : Nat
  total : Nat
  ratingSum : Nat
deriving DecidableEq

/-- Componentwise sum of two move-stat records. -/
def MoveStats.add (a b : MoveStats) : MoveStats :=
  ⟨a.wins + b.wins, a.draws + b.draws, a.losses + b.losses, a.total + b.total,
    a.ratingSum + b.ratingSum⟩

/-- UCI move text, as a byte string. -/
abbrev Uci := List Nat

/-- Modelled from the spec: `PersonalEntry` (absent from the sources) is a mapping
from UCI move to `MoveStats`, kept here as an association list in first-appearance
order, plus the bounded recent-game pointers `(uci, game id)`. -/
structure PersonalEntry where
  moves : List (Uci × MoveStats)
  recent : List (Uci × Nat)
deriving DecidableEq

/-- The fresh accumulator `PersonalEntry::default()` of the merge. -/
def emptyPersonal : PersonalEntry := ⟨[], []⟩

/-- Merge one move group into the accumulator map: sum counters when the move is
already present, append the group otherwise. -/
def addMove : List (Uci × MoveStats) → Uci × MoveStats → List (Uci × MoveStats)
  | [], m => [m]
  | (u, s) :: rest, m =>
    if u = m.1 then (u, s.add m.2) :: rest else (u, s) :: addMove rest m

/-- Modelled from the spec: `PersonalEntry::extend_from_reader` at the value level;
for each move of the operand, counters are summed into the accumulator, and the
operand's recent games extend the accumulator's list. -/
def PersonalEntry.extendWith (acc e : PersonalEntry) : PersonalEntry :=
  ⟨e.moves.foldl addMove acc.moves, acc.recent ++ e.recent⟩

/-- The fold of `personal_merge` (src/db.rs lines 133-141): extend a fresh default
accumulator with every operand in order. -/
def foldPersonal (ops : List PersonalEntry) : PersonalEntry :=
  ops.foldl PersonalEntry.extendWith emptyPersonal

/-- Modelled from the spec: after all folds the recent-games list is sorted by game
id descending and truncated to the cap; the numeric cap is not fixed by the
sources, so it is a parameter. -/
def finalizePersonal (cap : Nat) (e : PersonalEntry) : PersonalEntry :=
  ⟨e.moves, (sortDesc (fun r => r.2) e.recent).take cap⟩

/-- `personal_merge` (src/db.rs lines 128-145) at the value level: fold all
operands into a fresh accumulator, then sort and truncate the recent games for
serialization. -/
def personal_merge (cap : Nat) (ops : List PersonalEntry) : PersonalEntry :=
  finalizePersonal cap (foldPersonal ops)

theorem addMove_nil (m : Uci × MoveStats) : addMove [] m = [m] := rfl

theorem addMove_cons (u : Uci) (s : MoveStats) (rest : List (Uci × MoveStats))
    (m : Uci × MoveStats) :
    addMove ((u, s) :: rest) m
      = if u = m.1 then (u, s.add m.2) :: rest else (u, s) :: addMove rest m := rfl

/-- Adding a move whose UCI is not yet a key appends it at the end. -/
theorem addMove_of_not_mem (m : Uci × MoveStats) :
    ∀ l : List (Uci × MoveStats), m.1 ∉ l.map Prod.fst → addMove l m = l ++ [m] := by
  intro l
  induction l with
  | nil => intro _; rfl
  | cons p rest ih =>
    intro h
    rcases p with ⟨u, s⟩
    simp only [List.map_cons, List.mem_cons] at h
    push_neg at h
    rw [addMove_cons, if_neg (fun e => h.1 e.symm), ih h.2, List.cons_append]

/-- Adding a move whose UCI is already a key keeps the key list unchanged. -/
theorem map_fst_addMove_of_mem (m : Uci × MoveStats) :
    ∀ l : List (Uci × MoveStats), m.1 ∈ l.map Prod.fst →
      (addMove l m).map Prod.fst = l.map Prod.fst := by
  intro l
  induction l with
  | nil => intro h; simp at h
  | cons p rest ih =>
    intro h
    rcases p with ⟨u, s⟩
    by_cases he : u = m.1
    · rw [addMove_cons, if_pos he]; rfl
    · simp only [List.map_cons, List.mem_cons] at h
      rcases h with h | h
      · exact absurd h.symm he
      · rw [addMove_cons, if_neg he, List.map_cons, List.map_cons, ih h]

/-- Merging one move group preserves distinctness of the UCI keys. -/
theorem nodup_addMove (m : Uci × MoveStats) (l : List (Uci × MoveStats))
    (h : (l.map Prod.fst).Nodup) : ((addMove l m).map Prod.fst).Nodup := by
  by_cases hm : m.1 ∈ l.map Prod.fst
  · rw [map_fst_addMove_of_mem m l hm]; exact h
  · rw [addMove_of_not_mem m l hm]
    simp only [List.map_append]
    rw [List.nodup_append]
    exact ⟨h, by simp, by simpa using hm⟩

/-- A whole operand merged into the accumulator preserves key distinctness. -/
theorem nodup_foldl_addMove :
    ∀ (ms : List (Uci × MoveStats)) (acc : List (Uci × MoveStats)),
      (acc.map Prod.fst).Nodup → ((ms.foldl addMove acc).map Prod.fst).Nodup := by
  intro ms
  induction ms with
  | nil => intro acc h; exact h
  | cons m rest ih =>
    intro acc h
    rw [List.foldl_cons]
    exact ih _ (nodup_addMove m acc h)

/-- Merging a key-distinct move list into an accumulator with disjoint keys is
plain concatenation. -/
theorem foldl_addMove_disjoint :
    ∀ (ms : List (Uci × MoveStats)) (acc : List (Uci × MoveStats)),
      (ms.map Prod.fst).Nodup →
      (∀ u ∈ acc.map Prod.fst, u ∉ ms.map Prod.fst) →
      ms.foldl addMove acc = acc ++ ms := by
  intro ms
  induction ms with
  | nil => intro acc _ _; simp
  | cons m rest ih =>
    intro acc hnd hdis
    rw [List.foldl_cons]
    have hm : m.1 ∉ acc.map Prod.fst := by
      intro hin
      exact hdis m.1 hin (by simp)
    rw [addMove_of_not_mem m acc hm]
    rw [List.map_cons] at hnd
    have hnd1 : m.1 ∉ rest.map Prod.fst := (List.nodup_cons.mp hnd).1
    have hnd2 : (rest.map Prod.fst).Nodup := (List.nodup_cons.mp hnd).2
    have := ih (acc ++ [m]) hnd2 ?_
    · rw [this, List.append_assoc]; rfl
    · intro u hu
      simp only [List.map_append, List.mem_append] at hu
      rcases hu with hu | hu
      · intro hin; exact hdis u hu (by simp [hin])
      · simp only [List.map_cons, List.map_nil, List.mem_singleton] at hu
        rw [hu]; exact hnd1

/-- Extending the default accumulator with a key-distinct entry reproduces it. -/
theorem extendWith_empty (e : PersonalEntry) (h : (e.moves.map Prod.fst).Nodup) :
    emptyPersonal.extendWith e = e := by
  rcases e with ⟨ms, rc⟩
  simp only [PersonalEntry.extendWith, emptyPersonal]
  rw [foldl_addMove_disjoint ms [] h (by simp)]
  simp

/-- The moves half of the fold depends only on the accumulated moves. -/
theorem foldl_extendWith_moves :
    ∀ (l : List PersonalEntry) (acc : PersonalEntry),
      (l.foldl PersonalEntry.extendWith acc).moves
        = l.foldl (fun m e => e.moves.foldl addMove m) acc.moves := by
  intro l
  induction l with
  | nil => intro acc; rfl
  | cons e rest ih =>
    intro acc
    rw [List.foldl_cons, List.foldl_cons, ih]
    rfl

/-- The recent half of the fold is plain concatenation. -/
theorem foldl_extendWith_recent :
    ∀ (l : List PersonalEntry) (acc : PersonalEntry),
      (l.foldl PersonalEntry.extendWith acc).recent
        = l.foldl (fun r e => r ++ e.recent) acc.recent := by
  intro l
  induction l with
  | nil => intro acc; rfl
  | cons e rest ih =>
    intro acc
    rw [List.foldl_cons, List.foldl_cons, ih]
    rfl

/-- Concatenation folds factor through their starting accumulator. -/
theorem foldl_append_recent :
    ∀ (l : List PersonalEntry) (r : List (Uci × Nat)),
      l.foldl (fun r e => r ++ e.recent) r
        = r ++ l.foldl (fun r e => r ++ e.recent) [] := by
  intro l
  induction l with
  | nil => intro r; simp
  | cons e rest ih =>
    intro r
    rw [List.foldl_cons, List.foldl_cons, ih, ih (([] : List (Uci × Nat)) ++ e.recent)]
    simp

/-- The fold of `personal_merge` keeps the UCI keys of its accumulator distinct. -/
theorem foldPersonal_moves_nodup (l : List PersonalEntry) :
    (((foldPersonal l).moves).map Prod.fst).Nodup := by
  have hgen : ∀ (l : List PersonalEntry) (acc : PersonalEntry),
      ((acc.moves).map Prod.fst).Nodup →
      (((l.foldl PersonalEntry.extendWith acc).moves).map Prod.fst).Nodup := by
    intro l
    induction l with
    | nil => intro acc h; exact h
    | cons e rest ih =>
      intro acc h
      rw [List.foldl_cons]
      exact ih _ (nodup_foldl_addMove e.moves acc.moves h)
  exact hgen l emptyPersonal (by simp [emptyPersonal])

/-- C1: the personal merge is associative: folding all operand sequences in one
pass yields the same serialized entry as folding in two stages, modulo the
recent-games truncation policy (the move statistics always agree), and yields it
exactly when the intermediate fold's recent-games list does not exceed the cap. -/
theorem personal_merge_assoc (cap : Nat) (A B C : List PersonalEntry) :
    (personal_merge cap (A ++ B ++ C)).moves
        = (personal_merge cap (personal_merge cap (A ++ B) :: C)).moves
    ∧ ((foldPersonal (A ++ B)).recent.length ≤ cap →
        personal_merge cap (A ++ B ++ C)
          = personal_merge cap (personal_merge cap (A ++ B) :: C)) := by
  have hnod : (((foldPersonal (A ++ B)).moves).map Prod.fst).Nodup :=
    foldPersonal_moves_nodup (A ++ B)
  have hone : foldPersonal (A ++ B ++ C)
      = C.foldl PersonalEntry.extendWith (foldPersonal (A ++ B)) := by
    unfold foldPersonal
    rw [List.foldl_append]
  have hinner_nodup : (((personal_merge cap (A ++ B)).moves).map Prod.fst).Nodup := by
    simpa [personal_merge, finalizePersonal] using hnod
  have hstaged : foldPersonal (personal_merge cap (A ++ B) :: C)
      = C.foldl PersonalEntry.extendWith (personal_merge cap (A ++ B)) := by
    unfold foldPersonal
    rw [List.foldl_cons, extendWith_empty _ hinner_nodup]
  have hmoves_inner : (personal_merge cap (A ++ B)).moves
      = (foldPersonal (A ++ B)).moves := rfl
  constructor
  · show (finalizePersonal cap (foldPersonal (A ++ B ++ C))).moves
      = (finalizePersonal cap (foldPersonal (personal_merge cap (A ++ B) :: C))).moves
    simp only [finalizePersonal, hone, hstaged]
    rw [foldl_extendWith_moves, foldl_extendWith_moves, hmoves_inner]
  · intro hcap
    have hrec_inner : (personal_merge cap (A ++ B)).recent
        = sortDesc (fun r => r.2) (foldPersonal (A ++ B)).recent := by
      simp only [personal_merge, finalizePersonal]
      exact List.take_of_length_le (by rw [length_sortDesc]; exact hcap)
    show finalizePersonal cap (foldPersonal (A ++ B ++ C))
      = finalizePersonal cap (foldPersonal (personal_merge cap (A ++ B) :: C))
    simp only [finalizePersonal, hone, hstaged, PersonalEntry.mk.injEq]
    constructor
    · rw [foldl_extendWith_moves, foldl_extendWith_moves, hmoves_inner]
    · rw [foldl_extendWith_recent, foldl_extendWith_recent, hrec_inner,
        foldl_append_recent C (sortDesc (fun r => r.2) (foldPersonal (A ++ B)).recent),
        foldl_append_recent C (foldPersonal (A ++ B)).recent,
        sortDesc_append_sortDesc]

/-- Witness for C1 on concrete entries whose intermediate recent list is within
the cap, giving exact equality of the two folds. -/
theorem personal_merge_assoc_witness :
    (foldPersonal ([⟨[([4], ⟨1, 0, 0, 1, 7⟩)], [([4], 9)]⟩]
          ++ [⟨[([4], ⟨0, 1, 0, 1, 3⟩), ([5], ⟨1, 0, 0, 1, 2⟩)], [([5], 11)]⟩])).recent.length ≤ 3
    ∧ personal_merge 3 ([⟨[([4], ⟨1, 0, 0, 1, 7⟩)], [([4], 9)]⟩]
          ++ [⟨[([4], ⟨0, 1, 0, 1, 3⟩), ([5], ⟨1, 0, 0, 1, 2⟩)], [([5], 11)]⟩]
          ++ [⟨[([6], ⟨0, 0, 1, 1, 5⟩)], [([6], 10)]⟩])
        = personal_merge 3 (personal_merge 3 ([⟨[([4], ⟨1, 0, 0, 1, 7⟩)], [([4], 9)]⟩]
          ++ [⟨[([4], ⟨0, 1, 0, 1, 3⟩), ([5], ⟨1, 0, 0, 1, 2⟩)], [([5], 11)]⟩])
          :: [⟨[([6], ⟨0, 0, 1, 1, 5⟩)], [([6], 10)]⟩]) :=
  ⟨by decide,
    (personal_merge_assoc 3 [⟨[([4], ⟨1, 0, 0, 1, 7⟩)], [([4], 9)]⟩]
      [⟨[([4], ⟨0, 1, 0, 1, 3⟩), ([5], ⟨1, 0, 0, 1, 2⟩)], [([5], 11)]⟩]
      [⟨[([6], ⟨0, 0, 1, 1, 5⟩)], [([6], 10)]⟩]).2 (by decide)⟩

/-!
## Primitive byte readers and writers

Modelled from the spec: the entry codecs themselves are not under src/, only the
varint codec is; the layouts below follow the spec's field lists and use the
varint codec for every multibyte integer.
-/

/-- Read a single byte, as `read_u8`. -/
def readU8 : List Nat → Except RErr (Nat × List Nat)
  | [] => .error .eof
  | b :: rest => .ok (b, rest)

/-- A boolean flag, encoded as one byte. -/
def writeBool (b : Bool) : List Nat := [if b then 1 else 0]

def readBool (bs : List Nat) : Except RErr (Bool × List Nat) :=
  match readU8 bs with
  | .error e => .error e
  | .ok (b, rest) => .ok (b != 0, rest)

/-- A game result, encoded as one byte. -/
def writeWinner : Option Bool → List Nat
  | none => [0]
  | some true => [1]
  | some false => [2]

def readWinner : List Nat → Except RErr (Option Bool × List Nat)
  | [] => .error .eof
  | 0 :: rest => .ok (none, rest)
  | 1 :: rest => .ok (some true, rest)
  | 2 :: rest => .ok (some false, rest)
  | _ :: _ => .error .invalidData

/-- Read exactly `n` raw bytes. -/
def readN (n : Nat) (bs : List Nat) : Except RErr (List Nat × List Nat) :=
  if bs.length < n then .error .eof else .ok (bs.take n, bs.drop n)

/-- A length-prefixed byte string. -/
def writeBytes (b : List Nat) : List Nat := write_uint b.length ++ b

def readBytes (bs : List Nat) : Except RErr (List Nat × List Nat) :=
  match read_uint bs with
  | .error e => .error e
  | .ok (n, rest) => readN n rest

/-- A length-prefixed list of elements. -/
def writeList (we : α → List Nat) (l : List α) : List Nat :=
  write_uint l.length ++ l.foldr (fun e acc => we e ++ acc) []

/-- Read `k` consecutive elements with the element reader `re`. -/
def readMany (re : List Nat → Except RErr (α × List Nat)) :
    Nat → List Nat → Except RErr (List α × List Nat)
  | 0, bs => .ok ([], bs)
  | k + 1, bs =>
    match re bs with
    | .error e => .error e
    | .ok (x, bs2) =>
      match readMany re k bs2 with
      | .error e => .error e
      | .ok (xs, bs3) => .ok (x :: xs, bs3)

def readList (re : List Nat → Except RErr (α × List Nat)) (bs : List Nat) :
    Except RErr (List α × List Nat) :=
  match read_uint bs with
  | .error e => .error e
  | .ok (n, rest) => readMany re n rest

theorem readBool_append (b : Bool) (rest : List Nat) :
    readBool (writeBool b ++ rest) = .ok (b, rest) := by
  cases b <;> rfl

theorem readWinner_append (w : Option Bool) (rest : List Nat) :
    readWinner (writeWinner w ++ rest) = .ok (w, rest) := by
  rcases w with _ | b
  · rfl
  · cases b <;> rfl

theorem read_uint_append {n : Nat} (h : n < U64) (rest : List Nat) :
    read_uint (write_uint n ++ rest) = .ok (n, rest) := by
  have h0 := read_write_aux n 0 0 rest (by omega) (by norm_num) (by simpa using h)
  simpa [read_uint] using h0

theorem readN_append (xs rest : List Nat) :
    readN xs.length (xs ++ rest) = .ok (xs, rest) := by
  rw [readN, if_neg (by simp)]
  rw [List.take_left, List.drop_left]

theorem readBytes_append {xs : List Nat} (h : xs.length < U64) (rest : List Nat) :
    readBytes (writeBytes xs ++ rest) = .ok (xs, rest) := by
  simp only [writeBytes, List.append_assoc, readBytes, read_uint_append h, readN_append]

theorem readMany_append (re : List Nat → Except RErr (α × List Nat))
    (we : α → List Nat) :
    ∀ (l : List α), (∀ x ∈ l, ∀ r, re (we x ++ r) = .ok (x, r)) →
      ∀ rest, readMany re l.length (l.foldr (fun e acc => we e ++ acc) [] ++ rest)
        = .ok (l, rest) := by
  intro l
  induction l with
  | nil => intro _ rest; rfl
  | cons x xs ih =>
    intro hre rest
    simp only [List.length_cons, List.foldr_cons, List.append_assoc, readMany,
      hre x (List.mem_cons_self x xs),
      ih (fun y hy => hre y (List.mem_cons_of_mem x hy)) rest]

theorem readList_append (re : List Nat → Except RErr (α × List Nat))
    (we : α → List Nat) (l : List α) (hlen : l.length < U64)
    (hre : ∀ x ∈ l, ∀ r, re (we x ++ r) = .ok (x, r)) (rest : List Nat) :
    readList re (writeList we l ++ rest) = .ok (l, rest) := by
  simp only [writeList, List.append_assoc, readList, read_uint_append hlen,
    readMany_append re we l hre rest]

/-!
## GameInfo and the game merge operator (src/db.rs lines 105-126)
-/

/-- The `indexed: {white, black}` flag pair of a game record. -/
structure ByColorFlags where
  white : Bool
  black : Bool
deriving DecidableEq

/-- Modelled from the spec: `GameInfo` (absent from the sources) is a compact
record with both players' names and ratings, result, date (year and month),
speed, and the `indexed` flags. -/
structure GameInfo where
  indexed : ByColorFlags
  whiteName : List Nat
  whiteRating : Nat
  blackName : List Nat
  blackRating : Nat
  winner : Option Bool
  year : Nat
  month : Nat
  speed : Nat
deriving DecidableEq

/-- Modelled from the spec: `GameInfo::write`; flags as single bytes, names
length-prefixed, every integer as a varint. -/
def GameInfo.write (i : GameInfo) : List Nat :=
  writeBool i.indexed.white ++ (writeBool i.indexed.black ++
    (writeBytes i.whiteName ++ (write_uint i.whiteRating ++
    (writeBytes i.blackName ++ (write_uint i.blackRating ++
    (writeWinner i.winner ++ (write_uint i.year ++
    (write_uint i.month ++ write_uint i.speed))))))))

/-- Modelled from the spec: `GameInfo::read`, the field-by-field decoder. -/
def GameInfo.read (bs : List Nat) : Except RErr (GameInfo × List Nat) :=
  match readBool bs with
  | .error e => .error e
  | .ok (iw, bs) =>
  match readBool bs with
  | .error e => .error e
  | .ok (ib, bs) =>
  match readBytes bs with
  | .error e => .error e
  | .ok (wn, bs) =>
  match read_uint bs with
  | .error e => .error e
  | .ok (wr, bs) =>
  match readBytes bs with
  | .error e => .error e
  | .ok (bn, bs) =>
  match read_uint bs with
  | .error e => .error e
  | .ok (br, bs) =>
  match readWinner bs with
  | .error e => .error e
  | .ok (w, bs) =>
  match read_uint bs with
  | .error e => .error e
  | .ok (y, bs) =>
  match read_uint bs with
  | .error e => .error e
  | .ok (mo, bs) =>
  match read_uint bs with
  | .error e => .error e
  | .ok (sp, bs) => .ok (⟨⟨iw, ib⟩, wn, wr, bn, br, w, y, mo, sp⟩, bs)

/-- Well-formedness for serialization: every varint-encoded quantity fits in u64,
as the Rust field types force. -/
def GameInfo.wf (i : GameInfo) : Prop :=
  i.whiteName.length < U64 ∧ i.whiteRating < U64 ∧ i.blackName.length < U64 ∧
    i.blackRating < U64 ∧ i.year < U64 ∧ i.month < U64 ∧ i.speed < U64

instance (i : GameInfo) : Decidable i.wf := by
  unfold GameInfo.wf; infer_instance

/-- The GameInfo codec round-trips on well-formed records. -/
theorem GameInfo.read_write (i : GameInfo) (h : i.wf) (rest : List Nat) :
    GameInfo.read (GameInfo.write i ++ rest) = .ok (i, rest) := by
  rcases i with ⟨⟨iw, ib⟩, wn, wr, bn, br, w, y, mo, sp⟩
  rcases h with ⟨h1, h2, h3, h4, h5, h6, h7⟩
  simp only [GameInfo.write, List.append_assoc, GameInfo.read, readBool_append,
    readBytes_append h1, read_uint_append h2, readBytes_append h3,
    read_uint_append h4, readWinner_append, read_uint_append h5,
    read_uint_append h6, read_uint_append h7]

/-- The GameInfo codec round-trips on an exact operand. -/
theorem GameInfo.read_write_self (i : GameInfo) (h : i.wf) :
    GameInfo.read (GameInfo.write i) = .ok (i, []) := by
  have h0 := GameInfo.read_write i h []
  simpa using h0

/-- A merge-operator abort: the `.expect(...)` calls of src/db.rs panic the
process when an operand fails to deserialize. -/
inductive MergePanic where
  | panic
deriving DecidableEq

/-- The loop of game_merge (src/db.rs lines 111-120): take the latest decoded
operand but accumulate the indexed flags with bitwise or; a decode failure is a
panic. -/
def game_merge_go : Option GameInfo → List (List Nat) → Except MergePanic (Option GameInfo)
  | acc, [] => .ok acc
  | acc, op :: rest =>
    match GameInfo.read op with
    | .error _ => .error .panic
    | .ok (newInfo, _) =>
      match acc with
      | none => game_merge_go (some newInfo) rest
      | some old =>
        game_merge_go
          (some { newInfo with
            indexed := ⟨newInfo.indexed.white || old.indexed.white,
              newInfo.indexed.black || old.indexed.black⟩ }) rest

/-- game_merge (src/db.rs lines 105-126): fold the existing value and the
operands and re-serialize the result; `none` when there was no input at all. -/
def game_merge (existing : Option (List Nat)) (operands : List (List Nat)) :
    Except MergePanic (Option (List Nat)) :=
  match game_merge_go none (existing.toList ++ operands) with
  | .error e => .error e
  | .ok none => .ok none
  | .ok (some info) => .ok (some (GameInfo.write info))

/-- The value-level step of the game merge fold. -/
def valStep (old newInfo : GameInfo) : GameInfo :=
  { newInfo with
    indexed := ⟨newInfo.indexed.white || old.indexed.white,
      newInfo.indexed.black || old.indexed.black⟩ }

/-- Once seeded, the game merge fold is the value-level fold of `valStep`. -/
theorem game_merge_go_some :
    ∀ (l : List GameInfo) (a : GameInfo), (∀ i ∈ l, i.wf) →
      game_merge_go (some a) (l.map GameInfo.write) = .ok (some (l.foldl valStep a)) := by
  intro l
  induction l with
  | nil => intro a _; rfl
  | cons x xs ih =>
    intro a hwf
    have hx : x.wf := hwf x (List.mem_cons_self x xs)
    simp only [List.map_cons, game_merge_go, GameInfo.read_write_self x hx,
      List.foldl_cons, valStep]
    exact ih _ (fun i hi => hwf i (List.mem_cons_of_mem x hi))

/-- The value-level fold keeps the scalar fields of the last record and ors the
indexed flags of every input. -/
theorem foldl_valStep_getLastD :
    ∀ (l : List GameInfo) (a : GameInfo),
      l.foldl valStep a
        = { l.getLastD a with
            indexed := ⟨a.indexed.white || l.any (fun i => i.indexed.white),
              a.indexed.black || l.any (fun i => i.indexed.black)⟩ } := by
  intro l
  induction l with
  | nil =>
    intro a
    rcases a with ⟨⟨w, b⟩, _, _, _, _, _, _, _, _⟩
    simp [List.getLastD]
  | cons x xs ih =>
    intro a
    rw [List.foldl_cons, ih (valStep a x), List.getLastD_cons]
    rcases xs with _ | ⟨y, ys⟩
    · simp only [List.getLastD, List.any_nil, Bool.or_false, List.any_cons, valStep]
      simp [Bool.or_comm, Bool.or_assoc, Bool.or_left_comm]
    · simp only [List.getLastD_cons, List.any_cons, valStep]
      simp [Bool.or_comm, Bool.or_assoc, Bool.or_left_comm]

/-- C2: folding any nonempty sequence of GameInfo operands (optional existing
value, then the operand list) with the game merge operator yields the last
operand's record with its `indexed.white` (resp. `.black`) flag replaced by the
or of all inputs' flags; every other field equals the last operand's. -/
theorem game_merge_indexed_or (exInfo : Option GameInfo) (ops : List GameInfo)
    (hwf : ∀ i ∈ exInfo.toList ++ ops, i.wf) (hne : exInfo.toList ++ ops ≠ []) :
    game_merge (exInfo.map GameInfo.write) (ops.map GameInfo.write)
      = .ok (some (GameInfo.write
          { (exInfo.toList ++ ops).getLast hne with
              indexed := ⟨(exInfo.toList ++ ops).any (fun i => i.indexed.white),
                (exInfo.toList ++ ops).any (fun i => i.indexed.black)⟩ })) := by
  have hmap : (exInfo.map GameInfo.write).toList ++ ops.map GameInfo.write
      = (exInfo.toList ++ ops).map GameInfo.write := by
    cases exInfo <;> simp
  unfold game_merge
  rw [hmap]
  revert hwf hne
  generalize exInfo.toList ++ ops = inputs
  intro hwf hne
  rcases inputs with _ | ⟨i0, tl⟩
  · exact absurd rfl hne
  · have hwf0 : i0.wf := hwf i0 (List.mem_cons_self i0 tl)
    have hwftl : ∀ i ∈ tl, i.wf := fun i hi => hwf i (List.mem_cons_of_mem i0 hi)
    simp only [List.map_cons,
      show game_merge_go none (GameInfo.write i0 :: tl.map GameInfo.write)
          = game_merge_go (some i0) (tl.map GameInfo.write) from by
        simp only [game_merge_go, GameInfo.read_write_self i0 hwf0],
      game_merge_go_some tl i0 hwftl, foldl_valStep_getLastD tl i0]
    rw [List.getLast_eq_getLastD]
    simp [List.any_cons]

/-- Witness for C2 on two concrete game records. -/
theorem game_merge_indexed_or_witness :
    game_merge ((some (⟨⟨true, false⟩, [1], 11, [2], 12, some true, 3, 4, 5⟩ : GameInfo)).map GameInfo.write)
        ([(⟨⟨false, true⟩, [6], 13, [7], 14, none, 8, 9, 10⟩ : GameInfo)].map GameInfo.write)
      = .ok (some (GameInfo.write
          (⟨⟨true, true⟩, [6], 13, [7], 14, none, 8, 9, 10⟩ : GameInfo))) := by
  have h := game_merge_indexed_or
    (some (⟨⟨true, false⟩, [1], 11, [2], 12, some true, 3, 4, 5⟩ : GameInfo))
    [(⟨⟨false, true⟩, [6], 13, [7], 14, none, 8, 9, 10⟩ : GameInfo)]
    (by decide) (by decide)
  simpa using h

/-!
## PersonalEntry byte codec and the merge operators on raw operands
-/

/-- Modelled from the spec: one serialized move group of a PersonalEntry. -/
def writeMoveRow (m : Uci × MoveStats) : List Nat :=
  writeBytes m.1 ++ (write_uint m.2.wins ++ (write_uint m.2.draws ++
    (write_uint m.2.losses ++ (write_uint m.2.total ++ write_uint m.2.ratingSum))))

def readMoveRow (bs : List Nat) : Except RErr ((Uci × MoveStats) × List Nat) :=
  match readBytes bs with
  | .error e => .error e
  | .ok (u, bs) =>
  match read_uint bs with
  | .error e => .error e
  | .ok (w, bs) =>
  match read_uint bs with
  | .error e => .error e
  | .ok (d, bs) =>
  match read_uint bs with
  | .error e => .error e
  | .ok (l, bs) =>
  match read_uint bs with
  | .error e => .error e
  | .ok (t, bs) =>
  match read_uint bs with
  | .error e => .error e
  | .ok (r, bs) => .ok ((u, ⟨w, d, l, t, r⟩), bs)

/-- Modelled from the spec: one serialized recent-game pointer. -/
def writeRecentRow (p : Uci × Nat) : List Nat :=
  writeBytes p.1 ++ write_uint p.2

def readRecentRow (bs : List Nat) : Except RErr ((Uci × Nat) × List Nat) :=
  match readBytes bs with
  | .error e => .error e
  | .ok (u, bs) =>
  match read_uint bs with
  | .error e => .error e
  | .ok (g, bs) => .ok ((u, g), bs)

/-- Modelled from the spec: `PersonalEntry::write`, the two length-prefixed lists. -/
def PersonalEntry.write (e : PersonalEntry) : List Nat :=
  writeList writeMoveRow e.moves ++ writeList writeRecentRow e.recent

/-- Modelled from the spec: the PersonalEntry decoder used by
`extend_from_reader`. -/
def PersonalEntry.read (bs : List Nat) : Except RErr (PersonalEntry × List Nat) :=
  match readList readMoveRow bs with
  | .error e => .error e
  | .ok (ms, bs) =>
  match readList readRecentRow bs with
  | .error e => .error e
  | .ok (rc, bs) => .ok (⟨ms, rc⟩, bs)

/-- Well-formedness for serialization: all counters, ids and lengths fit in u64,
as the Rust field types force. -/
def PersonalEntry.wf (e : PersonalEntry) : Prop :=
  e.moves.length < U64
    ∧ (∀ m ∈ e.moves, m.1.length < U64 ∧ m.2.wins < U64 ∧ m.2.draws < U64
        ∧ m.2.losses < U64 ∧ m.2.total < U64 ∧ m.2.ratingSum < U64)
    ∧ e.recent.length < U64
    ∧ (∀ p ∈ e.recent, p.1.length < U64 ∧ p.2 < U64)

instance (e : PersonalEntry) : Decidable e.wf := by
  unfold PersonalEntry.wf; infer_instance

theorem readMoveRow_append (m : Uci × MoveStats)
    (h : m.1.length < U64 ∧ m.2.wins < U64 ∧ m.2.draws < U64 ∧ m.2.losses < U64
      ∧ m.2.total < U64 ∧ m.2.ratingSum < U64) (rest : List Nat) :
    readMoveRow (writeMoveRow m ++ rest) = .ok (m, rest) := by
  rcases m with ⟨u, ⟨w, d, l, t, r⟩⟩
  rcases h with ⟨h1, h2, h3, h4, h5, h6⟩
  simp only [writeMoveRow, List.append_assoc, readMoveRow, readBytes_append h1,
    read_uint_append h2, read_uint_append h3, read_uint_append h4,
    read_uint_append h5, read_uint_append h6]

theorem readRecentRow_append (p : Uci × Nat)
    (h : p.1.length < U64 ∧ p.2 < U64) (rest : List Nat) :
    readRecentRow (writeRecentRow p ++ rest) = .ok (p, rest) := by
  rcases p with ⟨u, g⟩
  rcases h with ⟨h1, h2⟩
  simp only [writeRecentRow, List.append_assoc, readRecentRow, readBytes_append h1,
    read_uint_append h2]

/-- The PersonalEntry codec round-trips on well-formed entries. -/
theorem PersonalEntry.read_write_entry (e : PersonalEntry) (h : e.wf) (rest : List Nat) :
    PersonalEntry.read (PersonalEntry.write e ++ rest) = .ok (e, rest) := by
  rcases e with ⟨ms, rc⟩
  rcases h with ⟨h1, h2, h3, h4⟩
  simp only [PersonalEntry.write, List.append_assoc, PersonalEntry.read,
    readList_append readMoveRow writeMoveRow ms h1
      (fun x hx r => readMoveRow_append x (h2 x hx) r),
    readList_append readRecentRow writeRecentRow rc h3
      (fun x hx r => readRecentRow_append x (h4 x hx) r)]

theorem PersonalEntry.read_write_entry_self (e : PersonalEntry) (h : e.wf) :
    PersonalEntry.read (PersonalEntry.write e) = .ok (e, []) := by
  have h0 := PersonalEntry.read_write_entry e h []
  simpa using h0

/-- The loop of personal_merge (src/db.rs lines 133-141): deserialize each operand
into the accumulator; a decode failure is a panic. -/
def personal_merge_go : PersonalEntry → List (List Nat) → Except MergePanic PersonalEntry
  | acc, [] => .ok acc
  | acc, op :: rest =>
    match PersonalEntry.read op with
    | .error _ => .error .panic
    | .ok (e, _) => personal_merge_go (acc.extendWith e) rest

/-- personal_merge (src/db.rs lines 128-145) on raw operands: fold the existing
value and all operands into a fresh accumulator and re-serialize it (an empty
operand sequence serializes the default entry). -/
def personal_merge_bytes (cap : Nat) (existing : Option (List Nat))
    (operands : List (List Nat)) : Except MergePanic (Option (List Nat)) :=
  match personal_merge_go emptyPersonal (existing.toList ++ operands) with
  | .error e => .error e
  | .ok e => .ok (some (PersonalEntry.write (finalizePersonal cap e)))

/-- On decodable operands the personal fold is the value-level fold. -/
theorem personal_merge_go_ok :
    ∀ (l : List PersonalEntry) (acc : PersonalEntry), (∀ e ∈ l, e.wf) →
      personal_merge_go acc (l.map PersonalEntry.write)
        = .ok (l.foldl PersonalEntry.extendWith acc) := by
  intro l
  induction l with
  | nil => intro acc _; rfl
  | cons x xs ih =>
    intro acc hwf
    have hx : x.wf := hwf x (List.mem_cons_self x xs)
    simp only [List.map_cons, personal_merge_go, PersonalEntry.read_write_entry_self x hx,
      List.foldl_cons]
    exact ih _ (fun e he => hwf e (List.mem_cons_of_mem x he))

/-- C7 (amended): on operand sequences of well-formed entry encodings (including
the empty sequence and a missing existing value) both merge operators return a
value and never abort; but on an operand that fails to decode they panic through
`.expect(...)`, in line with treating on-disk corruption as fatal. -/
theorem merge_operators_no_panic (cap : Nat) (exG : Option GameInfo)
    (opsG : List GameInfo) (exP : Option PersonalEntry) (opsP : List PersonalEntry)
    (hG : ∀ i ∈ exG.toList ++ opsG, i.wf) (hP : ∀ e ∈ exP.toList ++ opsP, e.wf) :
    (game_merge (exG.map GameInfo.write) (opsG.map GameInfo.write)).isOk = true
    ∧ (personal_merge_bytes cap (exP.map PersonalEntry.write)
        (opsP.map PersonalEntry.write)).isOk = true := by
  constructor
  · have hmap : (exG.map GameInfo.write).toList ++ opsG.map GameInfo.write
        = (exG.toList ++ opsG).map GameInfo.write := by
      cases exG <;> simp
    unfold game_merge
    rw [hmap]
    revert hG
    generalize exG.toList ++ opsG = inputs
    intro hG
    rcases inputs with _ | ⟨i0, tl⟩
    · rfl
    · have h0 : i0.wf := hG i0 (List.mem_cons_self i0 tl)
      simp only [List.map_cons,
        show game_merge_go none (GameInfo.write i0 :: tl.map GameInfo.write)
            = game_merge_go (some i0) (tl.map GameInfo.write) from by
          simp only [game_merge_go, GameInfo.read_write_self i0 h0],
        game_merge_go_some tl i0 (fun i hi => hG i (List.mem_cons_of_mem i0 hi))]
      rfl
  · have hmap : (exP.map PersonalEntry.write).toList ++ opsP.map PersonalEntry.write
        = (exP.toList ++ opsP).map PersonalEntry.write := by
      cases exP <;> simp
    unfold personal_merge_bytes
    rw [hmap]
    rw [personal_merge_go_ok (exP.toList ++ opsP) emptyPersonal hP]
    rfl

/-- Witness for C7: both operators succeed on one well-formed operand each, with a
missing existing value, and on the empty operand list. -/
theorem merge_operators_no_panic_witness :
    (game_merge none
        ([(⟨⟨true, false⟩, [1], 11, [2], 12, some true, 3, 4, 5⟩ : GameInfo)].map GameInfo.write)).isOk = true
    ∧ (personal_merge_bytes 2 none
        ([(⟨[([4], ⟨1, 0, 0, 1, 7⟩)], [([4], 9)]⟩ : PersonalEntry)].map PersonalEntry.write)).isOk = true := by
  have h := merge_operators_no_panic 2 none
    [(⟨⟨true, false⟩, [1], 11, [2], 12, some true, 3, 4, 5⟩ : GameInfo)]
    none [(⟨[([4], ⟨1, 0, 0, 1, 7⟩)], [([4], 9)]⟩ : PersonalEntry)]
    (by decide) (by decide)
  simpa using h

/-- Counterexample to C7 as stated: on an operand that is not a valid entry
encoding (the empty byte string) both merge operators abort with a panic instead
of returning a value. -/
theorem merge_operators_panic_on_corrupt :
    game_merge none [[]] = .error .panic
      ∧ personal_merge_bytes 0 none [[]] = .error .panic := by
  constructor <;> rfl

/-!
## Response assembly: sorting and truncating the moves list (src/main.rs)
-/

/-- One row of the response moves list; only the UCI and the stats total take part
in sorting and truncation. -/
structure MoveRow where
  uci : Uci
  total : Nat
deriving DecidableEq

/-- usize::MAX of the 64-bit target. -/
def USIZE_MAX : Nat := 2 ^ 64 - 1

/-- The master handler (src/main.rs lines 320-321): sort rows by stats total
descending (a stable sort) and truncate to `limits.moves`, defaulting to 12. -/
def master_moves (limit : Option Nat) (rows : List MoveRow) : List MoveRow :=
  (sortDesc (fun r => r.total) rows).take (limit.getD 12)

/-- The personal handler (src/main.rs lines 212-215) takes
`limits.moves.unwrap_or(usize::MAX)` rows from the prepared list; the sort by
total descending inside `prepare` is modelled from the spec (the model module is
absent from the sources). -/
def personal_moves (limit : Option Nat) (rows : List MoveRow) : List MoveRow :=
  (sortDesc (fun r => r.total) rows).take (limit.getD USIZE_MAX)

/-- C8 (amended): in both responses the moves list is sorted by stats total
descending; the master response is truncated to `limits.moves` with default 12,
while the personal response's default is `usize::MAX`, i.e. effectively no
truncation when the caller does not supply `limits.moves`. -/
theorem response_moves_sorted_truncated (limit : Option Nat) (rows : List MoveRow) :
    ((master_moves limit rows).Pairwise (fun a b => b.total ≤ a.total)
      ∧ (master_moves limit rows).length ≤ limit.getD 12
      ∧ (sortDesc (fun r => r.total) rows).Perm rows)
    ∧ ((personal_moves limit rows).Pairwise (fun a b => b.total ≤ a.total)
      ∧ (limit = none → rows.length ≤ USIZE_MAX →
          personal_moves limit rows = sortDesc (fun r => r.total) rows)) := by
  refine ⟨⟨?_, ?_, sortDesc_perm _ rows⟩, ?_, ?_⟩
  · exact List.Pairwise.sublist (List.take_sublist _ _)
      (sortDesc_sorted (fun r => r.total) rows)
  · exact List.length_take_le _ _
  · exact List.Pairwise.sublist (List.take_sublist _ _)
      (sortDesc_sorted (fun r => r.total) rows)
  · intro hl hlen
    rw [personal_moves, hl]
    exact List.take_of_length_le (by rw [length_sortDesc]; exact hlen)

/-- Witness for C8 with a supplied limit and with the personal default. -/
theorem response_moves_sorted_truncated_witness :
    ((master_moves (some 1) ([⟨[1], 3⟩, ⟨[2], 5⟩] : List MoveRow)).Pairwise
        (fun a b => b.total ≤ a.total)
      ∧ (master_moves (some 1) ([⟨[1], 3⟩, ⟨[2], 5⟩] : List MoveRow)).length ≤ 1
      ∧ (sortDesc (fun r => r.total) ([⟨[1], 3⟩, ⟨[2], 5⟩] : List MoveRow)).Perm
          ([⟨[1], 3⟩, ⟨[2], 5⟩] : List MoveRow))
    ∧ personal_moves none ([⟨[1], 3⟩, ⟨[2], 5⟩] : List MoveRow)
        = sortDesc (fun r => r.total) ([⟨[1], 3⟩, ⟨[2], 5⟩] : List MoveRow) := by
  have h := response_moves_sorted_truncated none ([⟨[1], 3⟩, ⟨[2], 5⟩] : List MoveRow)
  have h1 := response_moves_sorted_truncated (some 1) ([⟨[1], 3⟩, ⟨[2], 5⟩] : List MoveRow)
  exact ⟨⟨h1.1.1, h1.1.2.1, h1.1.2.2⟩, h.2.2 rfl (by decide)⟩

/-- Counterexample to C8 as stated: a personal response with 13 prepared rows and
no `limits.moves` keeps all 13 rows, where the claim's default of 12 would have
truncated one. -/
theorem personal_moves_no_default_12 :
    (personal_moves none (List.replicate 13 (⟨[1], 1⟩ : MoveRow))).length = 13
      ∧ ¬ (personal_moves none (List.replicate 13 (⟨[1], 1⟩ : MoveRow))).length ≤ 12 := by
  constructor <;> decide

/-!
## The personal range scan (src/db.rs lines 76-102)
-/

/-- RocksDB's bytewise comparator on keys. -/
def lexLt : List Nat → List Nat → Bool
  | [], [] => false
  | [], _ :: _ => true
  | _ :: _, [] => false
  | a :: as, b :: bs => if a < b then true else if b < a then false else lexLt as bs

/-- Modelled from the spec: the one-byte year sentinel `AnnoLichess::MAX`. -/
def annoLichessMax : Nat := 255

/-- Modelled from the spec: `PersonalKeyPrefix::with_year` appends the final year
byte to the key bytes. -/
def with_year (pre : List Nat) (y : Nat) : List Nat := pre ++ [y]

/-- A forward scan over the keyspace from `lo` (inclusive) bounded above by `hi`
(exclusive, as `set_iterate_upper_bound` is). -/
def scanRange (store : List (List Nat × PersonalEntry)) (lo hi : List Nat) :
    List (List Nat × PersonalEntry) :=
  store.filter (fun kv => !lexLt kv.1 lo && lexLt kv.1 hi)

/-- get_personal (src/db.rs lines 76-102): iterate from `prefix ++ [since]` up to
the exclusive bound `prefix ++ [AnnoLichess::MAX]` and extend a fresh entry with
every value found.  The function has no `until` parameter. -/
def get_personal (store : List (List Nat × PersonalEntry)) (pre : List Nat)
    (since : Nat) : PersonalEntry :=
  (scanRange store (with_year pre since) (with_year pre annoLichessMax)).foldl
    (fun acc kv => acc.extendWith kv.2) emptyPersonal

/-- C6 failing input, evaluated: with entries for years 18, 21 and 23 under one
prefix, a query with since = 20 (and an intended until = 22, which get_personal
cannot even receive) scans the keys of years 21 and 23 and folds both entries, so
the year-23 game beyond `until` is included; only the lower bound is honoured. -/
theorem get_personal_ignores_until :
    scanRange
        [(with_year [7] 18, ⟨[([1], ⟨1, 0, 0, 1, 0⟩)], [([1], 18)]⟩),
         (with_year [7] 21, ⟨[([1], ⟨1, 0, 0, 1, 0⟩)], [([1], 21)]⟩),
         (with_year [7] 23, ⟨[([1], ⟨1, 0, 0, 1, 0⟩)], [([1], 23)]⟩)]
        (with_year [7] 20) (with_year [7] annoLichessMax)
      = [(with_year [7] 21, ⟨[([1], ⟨1, 0, 0, 1, 0⟩)], [([1], 21)]⟩),
         (with_year [7] 23, ⟨[([1], ⟨1, 0, 0, 1, 0⟩)], [([1], 23)]⟩)]
    ∧ get_personal
        [(with_year [7] 18, ⟨[([1], ⟨1, 0, 0, 1, 0⟩)], [([1], 18)]⟩),
         (with_year [7] 21, ⟨[([1], ⟨1, 0, 0, 1, 0⟩)], [([1], 21)]⟩),
         (with_year [7] 23, ⟨[([1], ⟨1, 0, 0, 1, 0⟩)], [([1], 23)]⟩)]
        [7] 20
      = ⟨[([1], ⟨2, 0, 0, 2, 0⟩)], [([1], 21), ([1], 23)]⟩ := by
  constructor <;> decide

/-!
## The master importer (src/importer.rs)

The chess collaborator (shakmaty) is deliberately out of scope of the spec; it is
abstracted as a `ChessApi` record supplying the initial position, Zobrist hash,
side to move and the legality-checked move step.
-/

/-- The api::Error kinds the importer can return. -/
inductive ApiError where
  | rejectedImport (id : Nat)
  | duplicateGame (id : Nat)
  | illegalUci
deriving DecidableEq

/-- One player of a master game (src/importer.rs uses only the rating). -/
structure GamePlayer where
  rating : Nat
deriving DecidableEq

structure Players where
  white : GamePlayer
  black : GamePlayer
deriving DecidableEq

/-- `Players::by_color`, with `true` standing for White. -/
def Players.by_color (p : Players) (c : Bool) : GamePlayer :=
  if c then p.white else p.black

/-- The master game payload as the importer consumes it. -/
structure MasterGame where
  players : Players
  winner : Option Bool
  year : Nat
  moves : List Uci
deriving DecidableEq

/-- The PUT body: a game with its id. -/
structure MasterGameWithId where
  id : Nat
  game : MasterGame
deriving DecidableEq

/-- A master position key: Zobrist hash and year (the variant byte is the fixed
`Variant::Chess`). -/
abbrev MasterKey := Nat × Nat

/-- `MasterEntry::new_single` (the operand merged per position). -/
structure MasterOp where
  uci : Uci
  game : Nat
  winner : Option Bool
  rating : Nat
  opponentRating : Nat
deriving DecidableEq

/-- Membership of a key in an association list, as a point-get existence check. -/
def assocContains [DecidableEq κ] : List (κ × α) → κ → Bool
  | [], _ => false
  | (k0, _) :: rest, k => if k0 = k then true else assocContains rest k

/-- Append a merge operand under a key. -/
def assocAppend [DecidableEq κ] : List (κ × List β) → κ → β → List (κ × List β)
  | [], k, b => [(k, [b])]
  | (k0, l) :: rest, k, b =>
    if k0 = k then (k0, l ++ [b]) :: rest else (k0, l) :: assocAppend rest k b

/-- HashMap insert with replacement, for the `without_loops` deduplication map. -/
def insertReplace [DecidableEq κ] : List (κ × α) → κ → α → List (κ × α)
  | [], k, a => [(k, a)]
  | (k0, a0) :: rest, k, a =>
    if k0 = k then (k0, a) :: rest else (k0, a0) :: insertReplace rest k a

/-- The master store: the game column family (GameId to MasterGame, put-only) and
the merged position entries. -/
structure Store where
  masterGames : List (Nat × MasterGame)
  masterEntries : List (MasterKey × List MasterOp)
deriving DecidableEq

def has_master_game (s : Store) (id : Nat) : Bool :=
  assocContains s.masterGames id

def has_master (s : Store) (k : MasterKey) : Bool :=
  assocContains s.masterEntries k

def putMasterGame (s : Store) (id : Nat) (g : MasterGame) : Store :=
  { s with masterGames := (id, g) :: s.masterGames }

def mergeMaster (s : Store) (k : MasterKey) (op : MasterOp) : Store :=
  { s with masterEntries := assocAppend s.masterEntries k op }

/-- The chess collaborator: initial position, 128-bit Zobrist hash, side to move
(`true` = White), and the legality-checking move application returning the
normalized UCI and the successor position (`none` on an illegal move). -/
structure ChessApi (Pos : Type) where
  init : Pos
  hash : Pos → Nat
  turn : Pos → Bool
  step : Pos → Uci → Option (Uci × Pos)

/-- The ply walk of src/importer.rs lines 43-55: at every ply record the pre-move
key in the `without_loops` map (later inserts replace earlier ones for the same
key) and remember the final key; an illegal UCI aborts the walk.  In the source
`final_key` is assigned before the legality check, but an error discards it, so
setting it on success only is equivalent. -/
def walkMoves {Pos : Type} (C : ChessApi Pos) (year : Nat) :
    List Uci → Pos → List (MasterKey × (Uci × Bool)) → Option MasterKey →
    Except ApiError (List (MasterKey × (Uci × Bool)) × Option MasterKey)
  | [], _, acc, fk => .ok (acc, fk)
  | uci :: rest, pos, acc, _ =>
    let key : MasterKey := (C.hash pos, year)
    match C.step pos uci with
    | none => .error .illegalUci
    | some (u2, pos2) =>
      walkMoves C year rest pos2 (insertReplace acc key (u2, C.turn pos)) (some key)

/-- The single batch committed at the end of a successful master imports: the game
put plus one merge per deduplicated position. -/
def commitImport (s : Store) (body : MasterGameWithId)
    (ops : List (MasterKey × (Uci × Bool))) : Store :=
  ops.foldl
    (fun st kv =>
      mergeMaster st kv.1
        ⟨kv.2.1, body.id, body.game.winner,
          (body.game.players.by_color kv.2.2).rating,
          (body.game.players.by_color (!kv.2.2)).rating⟩)
    (putMasterGame s body.id body.game)

/-- `MasterImporter::import` (src/importer.rs lines 29-83): reject on low rating,
then on a duplicate GameId, then walk the plies, then reject on a duplicate final
position key, and only then commit the collected batch. -/
def importMaster {Pos : Type} (C : ChessApi Pos) (s : Store)
    (body : MasterGameWithId) : Except ApiError Store :=
  if body.game.players.white.rating / 2 + body.game.players.black.rating / 2 < 2200 then
    .error (.rejectedImport body.id)
  else if has_master_game s body.id then .error (.duplicateGame body.id)
  else
    match walkMoves C body.game.year body.game.moves C.init [] none with
    | .error e => .error e
    | .ok (ops, fk) =>
      if (match fk with | some k => has_master s k | none => false)
      then .error (.duplicateGame body.id)
      else .ok (commitImport s body ops)

/-- The store as left behind by an attempted master imports: the committed batch
on success, the untouched store on any error. -/
def importMasterApply {Pos : Type} (C : ChessApi Pos) (s : Store)
    (body : MasterGameWithId) : Store :=
  match importMaster C s body with
  | .ok s2 => s2
  | .error _ => s

/-- The ply walk fails only with the illegal-UCI error. -/
theorem walkMoves_error {Pos : Type} (C : ChessApi Pos) (year : Nat) :
    ∀ (moves : List Uci) (pos : Pos) (acc : List (MasterKey × (Uci × Bool)))
      (fk : Option MasterKey) (e : ApiError),
      walkMoves C year moves pos acc fk = .error e → e = .illegalUci := by
  intro moves
  induction moves with
  | nil => intro pos acc fk e h; exact absurd h (by simp [walkMoves])
  | cons uci rest ih =>
    intro pos acc fk e h
    rw [walkMoves] at h
    rcases hs : C.step pos uci with _ | ⟨u2, pos2⟩
    · rw [hs] at h
      simpa using h.symm
    · rw [hs] at h
      exact ih pos2 _ _ e h

/-- Whether an importer outcome is the rejected-import error. -/
def isRejectedImport : Except ApiError Store → Bool
  | .error (.rejectedImport _) => true
  | _ => false

/-- A degenerate chess collaborator over a unit position type, for concrete
evaluations: every move is illegal. -/
def toyChess : ChessApi Unit :=
  ⟨(), fun _ => 0, fun _ => true, fun _ _ => none⟩

/-- C5 (amended): a master imports attempt is rejected with RejectedImport exactly
when `white.rating / 2 + black.rating / 2 < 2200` (integer division per addend, as
the code computes it to avoid overflow), and a rejected attempt writes nothing. -/
theorem importMaster_rejected_iff {Pos : Type} (C : ChessApi Pos) (s : Store)
    (b : MasterGameWithId) :
    (isRejectedImport (importMaster C s b) = true
      ↔ b.game.players.white.rating / 2 + b.game.players.black.rating / 2 < 2200)
    ∧ (b.game.players.white.rating / 2 + b.game.players.black.rating / 2 < 2200 →
        importMasterApply C s b = s) := by
  by_cases hr : b.game.players.white.rating / 2 + b.game.players.black.rating / 2 < 2200
  · refine ⟨⟨fun _ => hr, fun _ => ?_⟩, fun _ => ?_⟩
    · unfold importMaster
      rw [if_pos hr]
      rfl
    · unfold importMasterApply importMaster
      rw [if_pos hr]
  · refine ⟨⟨?_, fun h => absurd h hr⟩, fun h => absurd h hr⟩
    intro habs
    exfalso
    unfold importMaster at habs
    rw [if_neg hr] at habs
    by_cases hd : has_master_game s b.id = true
    · rw [if_pos hd] at habs
      simp [isRejectedImport] at habs
    · rw [if_neg hd] at habs
      cases hw : walkMoves C b.game.year b.game.moves C.init [] none with
      | error e =>
        have he := walkMoves_error C b.game.year b.game.moves C.init [] none e hw
        subst he
        simp only [hw] at habs
        simp [isRejectedImport] at habs
      | ok v =>
        obtain ⟨ops, fk⟩ := v
        simp only [hw] at habs
        split at habs
        · simp [isRejectedImport] at habs
        · simp [isRejectedImport] at habs

/-- Witness for C5: an attempt with ratings 2100/2100 (average 2100) is rejected
and leaves the store unchanged. -/
theorem importMaster_rejected_iff_witness :
    isRejectedImport (importMaster toyChess ⟨[], []⟩
        ⟨5, ⟨⟨⟨2100⟩, ⟨2100⟩⟩, none, 0, []⟩⟩) = true
    ∧ importMasterApply toyChess ⟨[], []⟩
        ⟨5, ⟨⟨⟨2100⟩, ⟨2100⟩⟩, none, 0, []⟩⟩ = ⟨[], []⟩ :=
  ⟨(importMaster_rejected_iff toyChess ⟨[], []⟩
      ⟨5, ⟨⟨⟨2100⟩, ⟨2100⟩⟩, none, 0, []⟩⟩).1.mpr (by decide),
   (importMaster_rejected_iff toyChess ⟨[], []⟩
      ⟨5, ⟨⟨⟨2100⟩, ⟨2100⟩⟩, none, 0, []⟩⟩).2 (by decide)⟩

/-- Counterexample to C5 as stated: with ratings 2199 and 2201 the true average is
2200, so the claim's condition `(white + black) / 2 < 2200` is false, yet the code
computes `2199/2 + 2201/2 = 2199 < 2200` and rejects the imports attempt. -/
theorem importMaster_rejects_average_2200 :
    importMaster toyChess ⟨[], []⟩ ⟨5, ⟨⟨⟨2199⟩, ⟨2201⟩⟩, none, 0, []⟩⟩
      = .error (.rejectedImport 5)
    ∧ ¬ ((2199 + 2201) / 2 < 2200) :=
  ⟨rfl, by decide⟩

/-- C4 (amended): importing a game whose GameId is already present fails with
DuplicateGame, provided the body passes the rating check first (a low-rated body
with a duplicate id fails with RejectedImport instead); in either case the store
is left byte-identical. -/
theorem importMaster_duplicate_id {Pos : Type} (C : ChessApi Pos) (s : Store)
    (b : MasterGameWithId)
    (hr : ¬ (b.game.players.white.rating / 2 + b.game.players.black.rating / 2 < 2200))
    (hd : has_master_game s b.id = true) :
    importMaster C s b = .error (.duplicateGame b.id)
      ∧ importMasterApply C s b = s := by
  have h1 : importMaster C s b = .error (.duplicateGame b.id) := by
    unfold importMaster
    rw [if_neg hr, if_pos hd]
  refine ⟨h1, ?_⟩
  unfold importMasterApply
  rw [h1]

/-- Witness for C4: re-importing an already present, well-rated game fails with
DuplicateGame and the store is unchanged. -/
theorem importMaster_duplicate_id_witness :
    importMaster toyChess ⟨[(5, ⟨⟨⟨2400⟩, ⟨2400⟩⟩, none, 0, []⟩)], []⟩
        ⟨5, ⟨⟨⟨2400⟩, ⟨2400⟩⟩, none, 0, []⟩⟩
      = .error (.duplicateGame 5)
    ∧ importMasterApply toyChess ⟨[(5, ⟨⟨⟨2400⟩, ⟨2400⟩⟩, none, 0, []⟩)], []⟩
        ⟨5, ⟨⟨⟨2400⟩, ⟨2400⟩⟩, none, 0, []⟩⟩
      = ⟨[(5, ⟨⟨⟨2400⟩, ⟨2400⟩⟩, none, 0, []⟩)], []⟩ :=
  importMaster_duplicate_id toyChess ⟨[(5, ⟨⟨⟨2400⟩, ⟨2400⟩⟩, none, 0, []⟩)], []⟩
    ⟨5, ⟨⟨⟨2400⟩, ⟨2400⟩⟩, none, 0, []⟩⟩ (by decide) (by decide)

/-- Counterexample to C4 as stated: a body with a GameId already in the store but
a low rating fails with RejectedImport, not DuplicateGame, because the rating
check runs first. -/
theorem importMaster_duplicate_id_rejected_first :
    has_master_game ⟨[(5, ⟨⟨⟨2400⟩, ⟨2400⟩⟩, none, 0, []⟩)], []⟩ 5 = true
    ∧ importMaster toyChess ⟨[(5, ⟨⟨⟨2400⟩, ⟨2400⟩⟩, none, 0, []⟩)], []⟩
        ⟨5, ⟨⟨⟨1000⟩, ⟨1000⟩⟩, none, 0, []⟩⟩
      = .error (.rejectedImport 5) :=
  ⟨rfl, rfl⟩

/-- C10: the master importer is all-or-nothing: whenever it returns an error (low
rating, duplicate GameId, an illegal UCI anywhere in the walk, or a duplicate
final position key, the latter surfacing as DuplicateGame), the store receives no
put and no merge, because the batch is only committed after every check and every
ply succeeded. -/
theorem importMaster_all_or_nothing {Pos : Type} (C : ChessApi Pos) (s : Store)
    (b : MasterGameWithId) (e : ApiError) (h : importMaster C s b = .error e) :
    importMasterApply C s b = s
    ∧ (e = .rejectedImport b.id ∨ e = .duplicateGame b.id ∨ e = .illegalUci) := by
  constructor
  · unfold importMasterApply
    rw [h]
  · unfold importMaster at h
    by_cases hr : b.game.players.white.rating / 2 + b.game.players.black.rating / 2 < 2200
    · rw [if_pos hr] at h
      injection h with h2
      exact Or.inl h2.symm
    · rw [if_neg hr] at h
      by_cases hd : has_master_game s b.id = true
      · rw [if_pos hd] at h
        injection h with h2
        exact Or.inr (Or.inl h2.symm)
      · rw [if_neg hd] at h
        cases hw : walkMoves C b.game.year b.game.moves C.init [] none with
        | error e2 =>
          have he := walkMoves_error C b.game.year b.game.moves C.init [] none e2 hw
          simp only [hw] at h
          injection h with h2
          exact Or.inr (Or.inr (by rw [← h2, he]))
        | ok v =>
          obtain ⟨ops, fk⟩ := v
          simp only [hw] at h
          split at h
          · injection h with h2
            exact Or.inr (Or.inl h2.symm)
          · exact absurd h (by simp)

/-- Witness for C10 at a concrete failing imports attempt (low rating). -/
theorem importMaster_all_or_nothing_witness :
    importMasterApply toyChess ⟨[], []⟩ ⟨7, ⟨⟨⟨0⟩, ⟨0⟩⟩, none, 0, []⟩⟩ = ⟨[], []⟩
    ∧ ((.rejectedImport 7 : ApiError) = .rejectedImport 7
        ∨ (.rejectedImport 7 : ApiError) = .duplicateGame 7
        ∨ (.rejectedImport 7 : ApiError) = .illegalUci) :=
  importMaster_all_or_nothing toyChess ⟨[], []⟩ ⟨7, ⟨⟨⟨0⟩, ⟨0⟩⟩, none, 0, []⟩⟩
    (.rejectedImport 7) rfl

end OpeningExplorer
